import Mathlib

/-!
Verification of the interval-coverage aggregation and abundance-normalization
core of metaclust.map.py: the functions calculateTPM, calculateRPKM,
computetotalcoverage and computecorecoverage, shallowly embedded in Lean.

Modelling conventions:
* Python floats are modelled by exact rationals.
* A Python dict is modelled by an insertion-ordered association list.
* A stream of already-parsed text lines is modelled by a list of records;
  the numeric fields carry the values produced by float()/int().
* A Python exception that escapes a function (ZeroDivisionError in the final
  division loops) is modelled by an Except result; a loop that can raise is
  modelled by exceptMapM, which propagates the first error.
-/

namespace Metaclust

/-- Insertion-ordered dictionary with string keys and rational values,
modelling a Python dict. -/
abbrev QDict := List (String × ℚ)

/-- The key list of a dictionary, in insertion order. -/
def keysOf (d : QDict) : List String := d.map Prod.fst

/-- Python dict assignment d[k] = v: overwrite in place when k is present,
append otherwise (insertion order preserved; keys are unique by
construction, so replacing the first occurrence is replacing the only
occurrence). -/
def dictSet : QDict → String → ℚ → QDict
  | [], k, v => [(k, v)]
  | p :: d, k, v => if p.1 = k then (k, v) :: d else p :: dictSet d k v

/-- Python dict lookup d[k] with a default; at every call site below the key
is present, so the default is never reached. -/
def dictGetD : QDict → String → ℚ → ℚ
  | [], _, v₀ => v₀
  | p :: d, k, v₀ => if p.1 = k then p.2 else dictGetD d k v₀

/-- Runs a loop body that can raise over a list, collecting the results;
the first raised exception propagates, as in a Python for-loop. -/
def exceptMapM {α β : Type} (f : α → Except Unit β) : List α → Except Unit (List β)
  | [] => .ok []
  | a :: l =>
    match f a with
    | .error e => .error e
    | .ok b =>
      match exceptMapM f l with
      | .error e => .error e
      | .ok bs => .ok (b :: bs)

/-- Decidable equality for Except results, used to evaluate the functions
below on concrete inputs. -/
instance exceptDecidableEq {ε α : Type} [DecidableEq ε] [DecidableEq α] :
    DecidableEq (Except ε α) := fun a b =>
  match a, b with
  | .error e, .error e' =>
    match decEq e e' with
    | isTrue h => isTrue (h ▸ rfl)
    | isFalse h => isFalse fun he => h (Except.error.inj he)
  | .error _, .ok _ => isFalse fun he => Except.noConfusion he
  | .ok _, .error _ => isFalse fun he => Except.noConfusion he
  | .ok v, .ok v' =>
    match decEq v v' with
    | isTrue h => isTrue (h ▸ rfl)
    | isFalse h => isFalse fun he => h (Except.ok.inj he)

/-- Adds a key to a key list unless already present (the key order produced
by Python dict insertion). -/
def insertKey (K : List String) (c : String) : List String :=
  if c ∈ K then K else K ++ [c]

/-- First-occurrence deduplication of a list of keys: the key order of a
Python dict populated by one pass over the list. -/
def dedupFirst (L : List String) : List String := L.foldl insertKey []

/-! ## The depth-interval (bedgraph) stream -/

/-- One parsed line of a bedgraph file: cluster, start, end, coverage depth.
The `end` field is named `stop` because `end` is reserved in Lean. -/
structure BgLine where
  cluster : String
  start : ℚ
  stop : ℚ
  cov : ℚ

/-- The state of computetotalcoverage's reading loop: the `nocov` and
`clusterlen` dictionaries. -/
structure CovState where
  nocov : QDict
  clusterlen : QDict

/-- One iteration of computetotalcoverage's reading loop (metaclust.map.py
lines 480-487): record the line's end as the cluster length (last one wins),
create a zero `nocov` entry on first encounter, and add `end - start` to
`nocov` when the line's coverage is zero. -/
def covStep (st : CovState) (l : BgLine) : CovState :=
  let clusterlen := dictSet st.clusterlen l.cluster l.stop
  let nocov0 := if l.cluster ∈ keysOf st.nocov then st.nocov
                else st.nocov ++ [(l.cluster, 0)]
  let nocov := if l.cov = 0 then
                 dictSet nocov0 l.cluster (dictGetD nocov0 l.cluster 0 + (l.stop - l.start))
               else nocov0
  ⟨nocov, clusterlen⟩

/-- computetotalcoverage (metaclust.map.py lines 467-493). The final loop
divides by `clusterlen[key]` with no guard, so a zero length raises
ZeroDivisionError, modelled as an error result. -/
def computetotalcoverage (bgfile : List BgLine) : Except Unit QDict :=
  let st := bgfile.foldl covStep ⟨[], []⟩
  exceptMapM (fun p =>
    let len := dictGetD st.clusterlen p.1 0
    if len = 0 then .error () else .ok (p.1, (len - p.2) / len)) st.nocov

/-- The end of the last-seen interval of sequence s in the stream (the
sequence length as computetotalcoverage defines it). -/
def lastStop (bgfile : List BgLine) (s : String) : ℚ :=
  ((bgfile.filter (fun l => decide (l.cluster = s))).map (fun l => l.stop)).getLastD 0

/-- The total length of the zero-depth intervals of sequence s. -/
def uncovSum (bgfile : List BgLine) (s : String) : ℚ :=
  ((bgfile.filter (fun l => decide (l.cluster = s ∧ l.cov = 0))).map
    (fun l => l.stop - l.start)).sum

/-! ## The counts table and the normalizers -/

/-- One parsed line of a samtools idxstats counts file: reference name,
reference length, mapped-read count. The fourth (unmapped) field is never
used numerically. `hasStar` records whether the raw text line contains the
character `*` (calculateRPKM skips such lines wholesale); since the length
and read-count fields parse as numbers, a star can only sit in the name or
the unused fourth field. -/
structure CountLine where
  cluster : String
  length : ℚ
  nreads : ℚ
  hasStar : Bool

/-- The state of calculateTPM's reading loop: the rates dictionary and the
running rate sum. -/
structure TpmState where
  rates : QDict
  ratesum : ℚ

/-- One iteration of calculateTPM's reading loop (metaclust.map.py lines
338-346): rate = nreads/length; a zero length raises ZeroDivisionError,
which is caught and skips the record entirely. -/
def tpmRateStep (st : TpmState) (r : CountLine) : TpmState :=
  if r.length = 0 then st
  else ⟨dictSet st.rates r.cluster (r.nreads / r.length),
        st.ratesum + r.nreads / r.length⟩

/-- calculateTPM (metaclust.map.py lines 321-353). The final division by
ratesum is guarded: ZeroDivisionError is caught and the value set to 0. -/
def calculateTPM (countsfile : List CountLine) : QDict :=
  let st := countsfile.foldl tpmRateStep ⟨[], 0⟩
  st.rates.map (fun p => (p.1, if st.ratesum = 0 then 0 else p.2 / st.ratesum))

/-- The state of calculateRPKM's reading loop. -/
structure RpkmState where
  sum_reads : ℚ
  read_counts : QDict
  cluster_lengths : QDict

/-- One iteration of calculateRPKM's reading loop (metaclust.map.py lines
370-376): lines containing a star are skipped before parsing. -/
def rpkmStep (st : RpkmState) (r : CountLine) : RpkmState :=
  if r.hasStar then st
  else ⟨st.sum_reads + r.nreads,
        dictSet st.read_counts r.cluster r.nreads,
        dictSet st.cluster_lengths r.cluster r.length⟩

/-- calculateRPKM (metaclust.map.py lines 355-383). The final division is
guarded: ZeroDivisionError is caught and the value set to 0. -/
def calculateRPKM (countsfile : List CountLine) : QDict :=
  let st := countsfile.foldl rpkmStep ⟨0, [], []⟩
  st.read_counts.map (fun p =>
    let denom := st.sum_reads * dictGetD st.cluster_lengths p.1 0
    (p.1, if denom = 0 then 0 else p.2 / denom * 1000000000))

/-! ## The core-region table and computecorecoverage -/

/-- One parsed line of the core bedfile: cluster, start, end (ints). -/
structure BedLine where
  clust : String
  start : ℤ
  stop : ℤ

/-- The three dictionaries computecorecoverage builds from the bedfile
(metaclust.map.py lines 515-530); they always share one key set, recorded
once in `keys`.  Missing keys map to the creation defaults [] and 0, so the
create-if-missing steps of the source are absorbed into the defaults. -/
structure BedTables where
  keys : List String
  core_starts : String → List ℤ
  core_ends : String → List ℤ
  core_lengths : String → ℤ

/-- Empty bed tables. -/
def bedInit : BedTables := ⟨[], fun _ => [], fun _ => [], fun _ => 0⟩

/-- One iteration of the bedfile reading loop: append the start and end to
the cluster's lists and add the region length. -/
def bedStep (t : BedTables) (l : BedLine) : BedTables :=
  ⟨insertKey t.keys l.clust,
   fun s => if s = l.clust then t.core_starts s ++ [l.start] else t.core_starts s,
   fun s => if s = l.clust then t.core_ends s ++ [l.stop] else t.core_ends s,
   fun s => if s = l.clust then t.core_lengths s + (l.stop - l.start) else t.core_lengths s⟩

/-- The bed tables built from a whole bedfile. -/
def bedTables (bedfile : List BedLine) : BedTables := bedfile.foldl bedStep bedInit

/-- The state of computecorecoverage's sweep over the bedgraph: the core_cov
dictionary plus the single `flag` and `index` variables of the source (both
are plain variables shared across all clusters; only `index` is reassigned
when a new cluster is first seen). -/
structure CoreState where
  core_cov : QDict
  flag : Bool
  index : ℕ

/-- The initial sweep state: empty dict, flag = False. The source
initializes `index` to a dummy value that is overwritten before first use;
0 is used here. -/
def coreInit : CoreState := ⟨[], false, 0⟩

/-- Python core_cov[cluster] += d. -/
def ccAdd (cc : QDict) (c : String) (d : ℚ) : QDict :=
  dictSet cc c (dictGetD cc c 0 + d)

/-- One iteration of computecorecoverage's sweep (metaclust.map.py lines
537-563).  Structure of the source: a new cluster gets a zero core_cov
entry and resets `index` (but not `flag`); a cluster absent from the bed
tables raises KeyError at the first core_ends access, caught by setting
core_cov[cluster] = 0; an out-of-range index raises IndexError during the
first or third condition, caught by abandoning the rest of the line. -/
def coreStep (t : BedTables) (st : CoreState) (l : BgLine) : CoreState :=
  let c := l.cluster
  let cc0 := if c ∈ keysOf st.core_cov then st.core_cov else st.core_cov ++ [(c, 0)]
  let idx0 := if c ∈ keysOf st.core_cov then st.index else 0
  if c ∈ t.keys then
    match (t.core_ends c)[idx0]? with
    | none => ⟨cc0, st.flag, idx0⟩
    | some ce =>
      let cc1 := if ((ce : ℚ) ≤ l.stop ∧ (ce : ℚ) ≥ l.start) ∧ l.cov ≠ 0 then
                   ccAdd cc0 c ((ce : ℚ) - l.start)
                 else cc0
      let flag1 := if (ce : ℚ) ≤ l.stop ∧ (ce : ℚ) ≥ l.start then false else st.flag
      let idx1 := if (ce : ℚ) ≤ l.stop ∧ (ce : ℚ) ≥ l.start then idx0 + 1 else idx0
      let cc2 := if flag1 = true ∧ l.cov ≠ 0 then ccAdd cc1 c (l.stop - l.start) else cc1
      match (t.core_starts c)[idx1]? with
      | none => ⟨cc2, flag1, idx1⟩
      | some cs =>
        let cc3 := if ((cs : ℚ) ≥ l.start ∧ (cs : ℚ) ≤ l.stop) ∧ l.cov ≠ 0 then
                     ccAdd cc2 c (l.stop - (cs : ℚ))
                   else cc2
        let flag3 := if (cs : ℚ) ≥ l.start ∧ (cs : ℚ) ≤ l.stop then true else flag1
        ⟨cc3, flag3, idx1⟩
  else
    ⟨dictSet cc0 c 0, st.flag, idx0⟩

/-- The whole sweep of computecorecoverage over the bedgraph. -/
def coreSweep (bedgraph : List BgLine) (bedfile : List BedLine) : CoreState :=
  bedgraph.foldl (coreStep (bedTables bedfile)) coreInit

/-- computecorecoverage (metaclust.map.py lines 495-574).  The final loop
catches only KeyError (missing core_lengths entry resolves to 0); a present
core_lengths entry equal to 0 raises ZeroDivisionError, modelled as an
error result.  A quotient above 1 is clamped to 1. -/
def computecorecoverage (bedgraph : List BgLine) (bedfile : List BedLine) :
    Except Unit QDict :=
  let t := bedTables bedfile
  let st := coreSweep bedgraph bedfile
  exceptMapM (fun p =>
    if p.1 ∈ t.keys then
      if t.core_lengths p.1 = 0 then .error ()
      else
        let perc := p.2 / ((t.core_lengths p.1 : ℚ))
        .ok (p.1, if perc > 1 then 1 else perc)
    else .ok (p.1, 0)) st.core_cov

/-- Modelled from the spec: the spec's cursor rule resets the per-sequence
cursor to (index 0, inside_core = false) on first encountering a sequence in
the depth-interval stream.  This variant differs from coreStep only in also
resetting the flag on a first encounter; it exists to be compared with the
source's behaviour. -/
def coreStepReset (t : BedTables) (st : CoreState) (l : BgLine) : CoreState :=
  if l.cluster ∈ keysOf st.core_cov then coreStep t st l
  else coreStep t ⟨st.core_cov, false, 0⟩ l

/-- Modelled from the spec: computecorecoverage with the spec's full cursor
reset rule, used only as the comparison point for the cursor-reset claim. -/
def computecorecoverage_specReset (bedgraph : List BgLine) (bedfile : List BedLine) :
    Except Unit QDict :=
  let t := bedTables bedfile
  let st := bedgraph.foldl (coreStepReset t) coreInit
  exceptMapM (fun p =>
    if p.1 ∈ t.keys then
      if t.core_lengths p.1 = 0 then .error ()
      else
        let perc := p.2 / ((t.core_lengths p.1 : ℚ))
        .ok (p.1, if perc > 1 then 1 else perc)
    else .ok (p.1, 0)) st.core_cov

/-! ## Dictionary and key-list lemmas -/

/-- The canonical form of a dictionary: a key list paired with a value
function. Every dictionary built by the loops below is of this shape. -/
def keyMap (L : List String) (g : String → ℚ) : QDict :=
  L.map (fun k => (k, g k))

theorem keysOf_keyMap (L : List String) (g : String → ℚ) :
    keysOf (keyMap L g) = L := by
  induction L with
  | nil => rfl
  | cons k t ih => simpa [keysOf, keyMap] using ih

theorem keyMap_congr {L : List String} {g g' : String → ℚ}
    (h : ∀ k ∈ L, g k = g' k) : keyMap L g = keyMap L g' := by
  induction L with
  | nil => rfl
  | cons k t ih =>
    simp only [keyMap, List.map_cons, List.mem_cons] at *
    exact by rw [h k (Or.inl rfl), ih fun x hx => h x (Or.inr hx)]

theorem mem_insertKey {K : List String} {c x : String} :
    x ∈ insertKey K c ↔ x ∈ K ∨ x = c := by
  unfold insertKey
  by_cases h : c ∈ K
  · simp only [if_pos h]
    constructor
    · exact Or.inl
    · rintro (hx | rfl)
      · exact hx
      · exact h
  · simp [if_neg h]

theorem self_mem_insertKey (K : List String) (c : String) : c ∈ insertKey K c :=
  mem_insertKey.mpr (Or.inr rfl)

theorem insertKey_of_mem {K : List String} {c : String} (h : c ∈ K) :
    insertKey K c = K := by
  simp [insertKey, h]

theorem insertKey_idem (K : List String) (c : String) :
    insertKey (insertKey K c) c = insertKey K c :=
  insertKey_of_mem (self_mem_insertKey K c)

theorem nodup_insertKey {K : List String} (c : String) (h : K.Nodup) :
    (insertKey K c).Nodup := by
  unfold insertKey
  by_cases hc : c ∈ K
  · simpa [hc]
  · simp [hc, List.nodup_append, h]

theorem dedupFirst_concat (K : List String) (c : String) :
    dedupFirst (K ++ [c]) = insertKey (dedupFirst K) c := by
  simp [dedupFirst, List.foldl_append]

theorem mem_dedupFirst {L : List String} {x : String} :
    x ∈ dedupFirst L ↔ x ∈ L := by
  induction L using List.reverseRecOn with
  | nil => simp [dedupFirst]
  | append_singleton K c ih =>
    rw [dedupFirst_concat]
    simp [mem_insertKey, ih]

theorem nodup_dedupFirst (L : List String) : (dedupFirst L).Nodup := by
  induction L using List.reverseRecOn with
  | nil => simp [dedupFirst]
  | append_singleton K c ih => rw [dedupFirst_concat]; exact nodup_insertKey c ih

theorem dictGetD_keyMap (L : List String) (g : String → ℚ) (c : String) (v₀ : ℚ) :
    dictGetD (keyMap L g) c v₀ = if c ∈ L then g c else v₀ := by
  induction L with
  | nil => simp [keyMap, dictGetD]
  | cons k t ih =>
    simp only [keyMap, List.map_cons, dictGetD] at *
    by_cases h : k = c
    · subst h; simp
    · simp only [if_neg h, ih, List.mem_cons]
      by_cases hc : c ∈ t
      · simp [hc]
      · have hck : ¬ c = k := fun hh => h hh.symm
        simp [hc, hck]

theorem dictSet_keyMap_mem {L : List String} (g : String → ℚ) {c : String}
    (v : ℚ) (hc : c ∈ L) (hL : L.Nodup) :
    dictSet (keyMap L g) c v = keyMap L (fun k => if k = c then v else g k) := by
  induction L with
  | nil => cases hc
  | cons k t ih =>
    simp only [List.nodup_cons] at hL
    by_cases h : k = c
    · subst h
      show dictSet ((k, g k) :: keyMap t g) k v
          = (k, if k = k then v else g k) :: keyMap t (fun x => if x = k then v else g x)
      rw [if_pos rfl,
        show dictSet ((k, g k) :: keyMap t g) k v = (k, v) :: keyMap t g from by
          simp [dictSet]]
      exact List.cons_eq_cons.mpr ⟨rfl, keyMap_congr fun x hx => by
        have hxk : ¬ x = k := fun hxk => hL.1 (hxk ▸ hx)
        simp [hxk]⟩
    · have hct : c ∈ t := by
        rcases List.mem_cons.mp hc with rfl | hct
        · exact absurd rfl h
        · exact hct
      simp only [keyMap, List.map_cons, dictSet, if_neg h, List.cons.injEq, true_and]
      exact ih hct hL.2

theorem dictSet_keyMap_not_mem {L : List String} (g : String → ℚ) {c : String}
    (v : ℚ) (hc : c ∉ L) :
    dictSet (keyMap L g) c v =
      keyMap (L ++ [c]) (fun k => if k = c then v else g k) := by
  induction L with
  | nil => simp [keyMap, dictSet]
  | cons k t ih =>
    have hk : ¬ k = c := fun h => hc (h ▸ List.mem_cons_self k t)
    have hct : c ∉ t := fun h => hc (List.mem_cons_of_mem k h)
    simp only [keyMap, List.map_cons, dictSet, if_neg hk, List.cons_append]
    exact List.cons_eq_cons.mpr ⟨rfl, ih hct⟩

/-! ## exceptMapM lemmas -/

theorem exceptMapM_ok_of {α β : Type} (f : α → Except Unit β) (g : α → β)
    (l : List α) (h : ∀ a ∈ l, f a = .ok (g a)) :
    exceptMapM f l = .ok (l.map g) := by
  induction l with
  | nil => rfl
  | cons a t ih =>
    simp only [exceptMapM, h a (List.mem_cons_self a t),
      ih fun x hx => h x (List.mem_cons_of_mem a hx), List.map_cons]

theorem exceptMapM_mem {α β : Type} {f : α → Except Unit β} {l : List α}
    {m : List β} (h : exceptMapM f l = .ok m) :
    ∀ b ∈ m, ∃ a ∈ l, f a = .ok b := by
  induction l generalizing m with
  | nil =>
    simp only [exceptMapM, Except.ok.injEq] at h
    subst h; intro b hb; cases hb
  | cons a t ih =>
    simp only [exceptMapM] at h
    cases hfa : f a with
    | error e => rw [hfa] at h; cases h
    | ok b₀ =>
      rw [hfa] at h
      cases hrec : exceptMapM f t with
      | error e => rw [hrec] at h; cases h
      | ok bs =>
        rw [hrec] at h
        simp only [Except.ok.injEq] at h
        subst h
        intro b hb
        rcases List.mem_cons.mp hb with rfl | hb
        · exact ⟨a, List.mem_cons_self a t, hfa⟩
        · obtain ⟨x, hx, hfx⟩ := ih hrec b hb
          exact ⟨x, List.mem_cons_of_mem a hx, hfx⟩

theorem exceptMapM_error {α β : Type} {f : α → Except Unit β} {l : List α}
    (h : ∃ a ∈ l, f a = .error ()) : exceptMapM f l = .error () := by
  induction l with
  | nil => obtain ⟨a, ha, _⟩ := h; cases ha
  | cons a t ih =>
    obtain ⟨x, hx, hfx⟩ := h
    simp only [exceptMapM]
    rcases List.mem_cons.mp hx with rfl | hx
    · rw [hfx]
    · cases hfa : f a with
      | error e => cases e; rfl
      | ok b =>
        rw [ih ⟨x, hx, hfx⟩]

/-! ## Characterizing computetotalcoverage -/

theorem keyMap_append_single (L : List String) (g : String → ℚ) (c : String) :
    keyMap (L ++ [c]) g = keyMap L g ++ [(c, g c)] := by
  simp [keyMap]

theorem uncovSum_of_not_mem {bg : List BgLine} {s : String}
    (h : s ∉ bg.map (fun x => x.cluster)) : uncovSum bg s = 0 := by
  unfold uncovSum
  rw [show bg.filter (fun l => decide (l.cluster = s ∧ l.cov = 0)) = [] from ?_]
  · rfl
  · refine List.filter_eq_nil_iff.mpr fun l hl => ?_
    simp only [decide_eq_true_eq, not_and]
    intro hc
    exact absurd (hc ▸ List.mem_map_of_mem (fun x => x.cluster) hl) h

theorem lastStop_concat (bg : List BgLine) (l : BgLine) (s : String) :
    lastStop (bg ++ [l]) s = if l.cluster = s then l.stop else lastStop bg s := by
  unfold lastStop
  rw [List.filter_append]
  by_cases h : l.cluster = s
  · simp [h, List.getLastD_concat]
  · simp [h]

theorem uncovSum_concat (bg : List BgLine) (l : BgLine) (s : String) :
    uncovSum (bg ++ [l]) s =
      uncovSum bg s + (if l.cluster = s ∧ l.cov = 0 then l.stop - l.start else 0) := by
  unfold uncovSum
  rw [List.filter_append, List.map_append, List.sum_append]
  by_cases h : l.cluster = s ∧ l.cov = 0
  · simp [h]
  · simp [h]

theorem covStep_keyMap (bg : List BgLine) (l : BgLine) :
    covStep ⟨keyMap (dedupFirst (bg.map (fun x => x.cluster))) (uncovSum bg),
             keyMap (dedupFirst (bg.map (fun x => x.cluster))) (lastStop bg)⟩ l =
      ⟨keyMap (dedupFirst ((bg ++ [l]).map (fun x => x.cluster))) (uncovSum (bg ++ [l])),
       keyMap (dedupFirst ((bg ++ [l]).map (fun x => x.cluster))) (lastStop (bg ++ [l]))⟩ := by
  have hmap : (bg ++ [l]).map (fun x => x.cluster)
      = bg.map (fun x => x.cluster) ++ [l.cluster] := by simp
  set L := dedupFirst (bg.map (fun x => x.cluster)) with hLdef
  have hdedup : dedupFirst ((bg ++ [l]).map (fun x => x.cluster)) = insertKey L l.cluster := by
    rw [hmap, dedupFirst_concat]
  have hnodup : L.Nodup := nodup_dedupFirst _
  have hnodup' : (insertKey L l.cluster).Nodup := nodup_insertKey _ hnodup
  have hcmem : l.cluster ∈ insertKey L l.cluster := self_mem_insertKey _ _
  have hnocov0 :
      (if l.cluster ∈ keysOf (keyMap L (uncovSum bg)) then keyMap L (uncovSum bg)
        else keyMap L (uncovSum bg) ++ [(l.cluster, 0)])
      = keyMap (insertKey L l.cluster) (uncovSum bg) := by
    rw [keysOf_keyMap]
    by_cases hc : l.cluster ∈ L
    · rw [if_pos hc, insertKey_of_mem hc]
    · have h0 : uncovSum bg l.cluster = 0 :=
        uncovSum_of_not_mem (fun hm => hc (mem_dedupFirst.mpr hm))
      rw [if_neg hc, insertKey, if_neg hc, keyMap_append_single, h0]
  have hlen : dictSet (keyMap L (lastStop bg)) l.cluster l.stop
      = keyMap (insertKey L l.cluster) (lastStop (bg ++ [l])) := by
    by_cases hc : l.cluster ∈ L
    · rw [dictSet_keyMap_mem _ _ hc hnodup, insertKey_of_mem hc]
      exact keyMap_congr fun k _ => by
        rw [lastStop_concat]
        by_cases hk : k = l.cluster
        · simp [hk]
        · rw [if_neg hk, if_neg fun h => hk h.symm]
    · rw [dictSet_keyMap_not_mem _ _ hc, insertKey, if_neg hc]
      exact keyMap_congr fun k _ => by
        rw [lastStop_concat]
        by_cases hk : k = l.cluster
        · simp [hk]
        · rw [if_neg hk, if_neg fun h => hk h.symm]
  have hnocov : (if l.cov = 0 then
        dictSet (keyMap (insertKey L l.cluster) (uncovSum bg)) l.cluster
          (dictGetD (keyMap (insertKey L l.cluster) (uncovSum bg)) l.cluster 0
            + (l.stop - l.start))
      else keyMap (insertKey L l.cluster) (uncovSum bg))
      = keyMap (insertKey L l.cluster) (uncovSum (bg ++ [l])) := by
    by_cases hcov : l.cov = 0
    · rw [if_pos hcov, dictGetD_keyMap, if_pos hcmem,
        dictSet_keyMap_mem _ _ hcmem hnodup']
      exact keyMap_congr fun k _ => by
        rw [uncovSum_concat]
        by_cases hk : k = l.cluster
        · simp [hk, hcov]
        · rw [if_neg hk, if_neg (fun h => hk h.1.symm), add_zero]
    · rw [if_neg hcov]
      exact keyMap_congr fun k _ => by
        rw [uncovSum_concat, if_neg (fun h => hcov h.2), add_zero]
  simp only [covStep]
  rw [hnocov0, hnocov, hlen, hdedup]

theorem covFold_eq (bg : List BgLine) :
    bg.foldl covStep ⟨[], []⟩ =
      ⟨keyMap (dedupFirst (bg.map (fun x => x.cluster))) (uncovSum bg),
       keyMap (dedupFirst (bg.map (fun x => x.cluster))) (lastStop bg)⟩ := by
  induction bg using List.reverseRecOn with
  | nil => rfl
  | append_singleton bg l ih =>
    rw [List.foldl_append, ih, List.foldl_cons, List.foldl_nil, covStep_keyMap]

/-- The closed form of computetotalcoverage: when every sequence's recorded
length is nonzero, it returns, in first-occurrence order, the pair
(s, (length - uncovered) / length) for each sequence s of the stream. -/
theorem totalcov_spec (bg : List BgLine)
    (h : ∀ s ∈ dedupFirst (bg.map (fun x => x.cluster)), lastStop bg s ≠ 0) :
    computetotalcoverage bg =
      .ok ((dedupFirst (bg.map (fun x => x.cluster))).map
        (fun s => (s, (lastStop bg s - uncovSum bg s) / lastStop bg s))) := by
  unfold computetotalcoverage
  rw [covFold_eq]
  rw [exceptMapM_ok_of _
    (fun p => (p.1, (lastStop bg p.1 - p.2) / lastStop bg p.1)) _ ?_]
  · unfold keyMap
    rw [List.map_map]
    rfl
  · intro p hp
    obtain ⟨s, hs, rfl⟩ := List.mem_map.mp hp
    simp only [dictGetD_keyMap, if_pos hs]
    rw [if_neg (h s hs)]

/-! ## Contiguous-run lemmas -/

/-- Telescoping sum for a contiguous run: the interval lengths sum to the
last end minus the first start. -/
theorem contiguous_sum_lens (a : BgLine) (t : List BgLine)
    (hchain : List.Chain' (fun x y => x.stop = y.start) (a :: t)) :
    ((a :: t).map (fun l => l.stop - l.start)).sum
      = ((a :: t).map (fun l => l.stop)).getLastD 0 - a.start := by
  induction t generalizing a with
  | nil => simp
  | cons b t ih =>
    have hab : a.stop = b.start := (List.chain'_cons.mp hchain).1
    have hbt := ih b (List.chain'_cons.mp hchain).2
    have hg : (a.stop :: b.stop :: List.map (fun l => l.stop) t).getLastD 0
        = (b.stop :: List.map (fun l => l.stop) t).getLastD 0 := by
      simp only [List.getLastD_cons]
    simp only [List.map_cons, List.sum_cons] at hbt ⊢
    rw [hg, hbt, hab]
    ring

/-- Bounds for a nonempty contiguous well-formed run: its recorded length is
positive, and the total zero-depth length lies between 0 and the recorded
length, vanishing exactly when no interval has zero depth. -/
theorem run_stats (a : BgLine) (t : List BgLine)
    (hchain : List.Chain' (fun x y => x.stop = y.start) (a :: t))
    (hwf : ∀ l ∈ a :: t, 0 ≤ l.start ∧ l.start < l.stop) :
    0 < ((a :: t).map (fun l => l.stop)).getLastD 0 ∧
    0 ≤ (((a :: t).filter (fun l => decide (l.cov = 0))).map (fun l => l.stop - l.start)).sum ∧
    (((a :: t).filter (fun l => decide (l.cov = 0))).map (fun l => l.stop - l.start)).sum
      ≤ ((a :: t).map (fun l => l.stop)).getLastD 0 ∧
    ((((a :: t).filter (fun l => decide (l.cov = 0))).map (fun l => l.stop - l.start)).sum = 0
      ↔ ∀ l ∈ a :: t, ¬ l.cov = 0) := by
  have htel := contiguous_sum_lens a t hchain
  have hterm : ∀ x ∈ (a :: t).map (fun l => l.stop - l.start), 0 < x := by
    intro x hx
    obtain ⟨l, hl, rfl⟩ := List.mem_map.mp hx
    exact sub_pos.mpr (hwf l hl).2
  have hsumpos : 0 < ((a :: t).map (fun l => l.stop - l.start)).sum :=
    List.sum_pos _ hterm (by simp)
  have hstart : 0 ≤ a.start := (hwf a (List.mem_cons_self a t)).1
  have hGpos : 0 < ((a :: t).map (fun l => l.stop)).getLastD 0 := by
    have := htel
    linarith
  have hsub : List.Sublist
      (((a :: t).filter (fun l => decide (l.cov = 0))).map (fun l => l.stop - l.start))
      ((a :: t).map (fun l => l.stop - l.start)) :=
    ((a :: t).filter_sublist).map _
  have huncle : (((a :: t).filter (fun l => decide (l.cov = 0))).map
      (fun l => l.stop - l.start)).sum ≤ ((a :: t).map (fun l => l.stop - l.start)).sum :=
    hsub.sum_le_sum fun x hx => le_of_lt (hterm x hx)
  have huncnonneg : 0 ≤ (((a :: t).filter (fun l => decide (l.cov = 0))).map
      (fun l => l.stop - l.start)).sum :=
    List.sum_nonneg fun x hx => le_of_lt (hterm x (hsub.mem hx))
  refine ⟨hGpos, huncnonneg, by linarith, ?_⟩
  constructor
  · intro hz
    by_contra hex
    push_neg at hex
    obtain ⟨l, hl, hcov⟩ := hex
    have hlf : l ∈ (a :: t).filter (fun l => decide (l.cov = 0)) :=
      List.mem_filter.mpr ⟨hl, by simpa using hcov⟩
    have hpos : 0 < (((a :: t).filter (fun l => decide (l.cov = 0))).map
        (fun l => l.stop - l.start)).sum := by
      refine List.sum_pos _ (fun x hx => hterm x (hsub.mem hx)) ?_
      intro hnil
      rw [List.map_eq_nil_iff] at hnil
      rw [hnil] at hlf
      cases hlf
    exact absurd hz (ne_of_gt hpos)
  · intro hall
    rw [show (a :: t).filter (fun l => decide (l.cov = 0)) = [] from
      List.filter_eq_nil_iff.mpr fun l hl => by simpa using hall l hl]
    rfl

/-- Splitting the combined filter of uncovSum into the per-sequence run
followed by the zero-depth filter. -/
theorem filter_and_split (bg : List BgLine) (s : String) :
    bg.filter (fun l => decide (l.cluster = s ∧ l.cov = 0))
      = (bg.filter (fun l => decide (l.cluster = s))).filter
          (fun l => decide (l.cov = 0)) := by
  induction bg with
  | nil => rfl
  | cons a t ih =>
    by_cases h1 : a.cluster = s
    · by_cases h2 : a.cov = (0 : ℚ)
      · rw [List.filter_cons_of_pos (by simp [h1, h2]),
          List.filter_cons_of_pos (by simp [h1]),
          List.filter_cons_of_pos (by simp [h2]), ih]
      · rw [List.filter_cons_of_neg (by simp [h2]),
          List.filter_cons_of_pos (by simp [h1]),
          List.filter_cons_of_neg (by simp [h2]), ih]
    · rw [List.filter_cons_of_neg (by simp [h1]),
        List.filter_cons_of_neg (by simp [h1]), ih]

/-! ## Claims about computetotalcoverage -/

/-- C1: for a depth-interval stream obeying the DepthInterval data model
(start ≥ 0, end > start, depth ≥ 0, and each sequence's intervals
contiguous — hence non-overlapping and in increasing start order),
computetotalcoverage succeeds and gives every sequence s of the stream a
coverage fraction v with 0 ≤ v ≤ 1, where v = 1 exactly when every
interval of s has positive depth. -/
theorem C1_total_coverage_bounds (bg : List BgLine)
    (hwf : ∀ l ∈ bg, 0 ≤ l.start ∧ l.start < l.stop ∧ 0 ≤ l.cov)
    (hchain : ∀ s ∈ bg.map (fun x => x.cluster),
      List.Chain' (fun x y => x.stop = y.start)
        (bg.filter (fun l => decide (l.cluster = s)))) :
    ∃ m, computetotalcoverage bg = Except.ok m ∧
      ∀ s ∈ bg.map (fun x => x.cluster),
        ∃ v, (s, v) ∈ m ∧ 0 ≤ v ∧ v ≤ 1 ∧
          (v = 1 ↔ ∀ l ∈ bg, l.cluster = s → 0 < l.cov) := by
  have key : ∀ s ∈ bg.map (fun x => x.cluster),
      0 < lastStop bg s ∧ 0 ≤ uncovSum bg s ∧ uncovSum bg s ≤ lastStop bg s ∧
      (uncovSum bg s = 0 ↔ ∀ l ∈ bg, l.cluster = s → ¬ l.cov = 0) := by
    intro s hs
    obtain ⟨l0, hl0, hl0s⟩ := List.mem_map.mp hs
    have hl0run : l0 ∈ bg.filter (fun l => decide (l.cluster = s)) :=
      List.mem_filter.mpr ⟨hl0, by simp [hl0s]⟩
    cases hrun : bg.filter (fun l => decide (l.cluster = s)) with
    | nil => rw [hrun] at hl0run; cases hl0run
    | cons a t =>
      have hchain' := hchain s hs
      rw [hrun] at hchain'
      have hmemrun : ∀ l ∈ a :: t, l ∈ bg ∧ l.cluster = s := by
        intro l hl
        have hlf : l ∈ bg.filter (fun x => decide (x.cluster = s)) := by
          rw [hrun]; exact hl
        exact ⟨List.mem_of_mem_filter hlf, by
          simpa using (List.mem_filter.mp hlf).2⟩
      have hwf' : ∀ l ∈ a :: t, 0 ≤ l.start ∧ l.start < l.stop := by
        intro l hl
        obtain ⟨hlbg, _⟩ := hmemrun l hl
        exact ⟨(hwf l hlbg).1, (hwf l hlbg).2.1⟩
      obtain ⟨h1, h2, h3, h4⟩ := run_stats a t hchain' hwf'
      have hlast : lastStop bg s = ((a :: t).map (fun l => l.stop)).getLastD 0 := by
        unfold lastStop; rw [hrun]
      have hunc : uncovSum bg s
          = (((a :: t).filter (fun l => decide (l.cov = 0))).map
              (fun l => l.stop - l.start)).sum := by
        unfold uncovSum
        rw [filter_and_split, hrun]
      refine ⟨hlast ▸ h1, hunc ▸ h2, ?_, ?_⟩
      · rw [hunc, hlast]; exact h3
      · rw [hunc, h4]
        constructor
        · intro hall l hl hls
          exact hall l (by
            rw [← hrun]
            exact List.mem_filter.mpr ⟨hl, by simp [hls]⟩)
        · intro hall l hl
          obtain ⟨hlbg, hls⟩ := hmemrun l hl
          exact hall l hlbg hls
  have hne : ∀ s ∈ dedupFirst (bg.map (fun x => x.cluster)), lastStop bg s ≠ 0 :=
    fun s hs => ne_of_gt (key s (mem_dedupFirst.mp hs)).1
  refine ⟨_, totalcov_spec bg hne, ?_⟩
  intro s hs
  obtain ⟨h1, h2, h3, h4⟩ := key s hs
  refine ⟨(lastStop bg s - uncovSum bg s) / lastStop bg s,
    List.mem_map.mpr ⟨s, mem_dedupFirst.mpr hs, rfl⟩,
    div_nonneg (by linarith) (le_of_lt h1),
    (div_le_one h1).mpr (by linarith), ?_⟩
  rw [div_eq_one_iff_eq (ne_of_gt h1)]
  constructor
  · intro he l hl hls
    have hu0 : uncovSum bg s = 0 := by linarith
    exact lt_of_le_of_ne (hwf l hl).2.2 fun h0 => (h4.mp hu0) l hl hls h0.symm
  · intro hall
    have hu0 : uncovSum bg s = 0 :=
      h4.mpr fun l hl hls => ne_of_gt (hall l hl hls)
    linarith

/-- The contiguity hypothesis of C1 at the witness stream, proved once. -/
theorem chain_hyp_witness :
    ∀ s ∈ ([⟨"c1", 0, 5, 2⟩, ⟨"c1", 5, 10, 0⟩] : List BgLine).map (fun x => x.cluster),
      List.Chain' (fun x y => x.stop = y.start)
        (([⟨"c1", 0, 5, 2⟩, ⟨"c1", 5, 10, 0⟩] : List BgLine).filter
          (fun l => decide (l.cluster = s))) := by
  intro s hs
  have hs1 : s = "c1" := by simpa using hs
  subst hs1
  show List.Chain' (fun x y => x.stop = y.start)
    ([⟨"c1", 0, 5, 2⟩, ⟨"c1", 5, 10, 0⟩] : List BgLine)
  exact List.chain'_cons.mpr ⟨rfl, List.chain'_singleton _⟩

/-- Witness for C1 at the concrete stream
[("c1", 0, 5, 2), ("c1", 5, 10, 0)]. -/
theorem C1_total_coverage_bounds_witness :
    (∀ l ∈ ([⟨"c1", 0, 5, 2⟩, ⟨"c1", 5, 10, 0⟩] : List BgLine),
      0 ≤ l.start ∧ l.start < l.stop ∧ 0 ≤ l.cov) ∧
    (∀ s ∈ ([⟨"c1", 0, 5, 2⟩, ⟨"c1", 5, 10, 0⟩] : List BgLine).map (fun x => x.cluster),
      List.Chain' (fun x y => x.stop = y.start)
        (([⟨"c1", 0, 5, 2⟩, ⟨"c1", 5, 10, 0⟩] : List BgLine).filter
          (fun l => decide (l.cluster = s)))) ∧
    (∃ m, computetotalcoverage ([⟨"c1", 0, 5, 2⟩, ⟨"c1", 5, 10, 0⟩] : List BgLine)
        = Except.ok m ∧
      ∀ s ∈ ([⟨"c1", 0, 5, 2⟩, ⟨"c1", 5, 10, 0⟩] : List BgLine).map (fun x => x.cluster),
        ∃ v, (s, v) ∈ m ∧ 0 ≤ v ∧ v ≤ 1 ∧
          (v = 1 ↔ ∀ l ∈ ([⟨"c1", 0, 5, 2⟩, ⟨"c1", 5, 10, 0⟩] : List BgLine),
            l.cluster = s → 0 < l.cov)) :=
  ⟨by decide, chain_hyp_witness,
   C1_total_coverage_bounds _ (by decide) chain_hyp_witness⟩

/-- C3 counterexample: on the stream [("c1", 0, 0, 0)] the recorded length
of "c1" is 0, and computetotalcoverage raises ZeroDivisionError (an error
result) instead of returning coverage 0 without a fault. -/
theorem C3_counterexample :
    computetotalcoverage ([⟨"c1", 0, 0, 0⟩] : List BgLine) = Except.error () := by
  rfl

/-- C3 (amended): for every depth-interval stream in which each sequence's
recorded length (the end of its last-seen interval) is nonzero,
computetotalcoverage returns coverage_fraction[s] = (length - uncovered) /
length for every sequence s, where uncovered sums end - start over the
zero-depth intervals of s; when some recorded length is 0 the function
raises a ZeroDivisionError instead of returning 0 (see the
counterexample). -/
theorem C3_total_coverage_formula (bg : List BgLine)
    (h : ∀ s ∈ bg.map (fun x => x.cluster), lastStop bg s ≠ 0) :
    computetotalcoverage bg =
      Except.ok ((dedupFirst (bg.map (fun x => x.cluster))).map
        (fun s => (s, (lastStop bg s - uncovSum bg s) / lastStop bg s))) :=
  totalcov_spec bg fun s hs => h s (mem_dedupFirst.mp hs)

/-- Witness for C3 (amended) at the concrete stream [("c1", 0, 4, 0)]. -/
theorem C3_total_coverage_formula_witness :
    (∀ s ∈ ([⟨"c1", 0, 4, 0⟩] : List BgLine).map (fun x => x.cluster),
      lastStop ([⟨"c1", 0, 4, 0⟩] : List BgLine) s ≠ 0) ∧
    computetotalcoverage ([⟨"c1", 0, 4, 0⟩] : List BgLine) =
      Except.ok ((dedupFirst (([⟨"c1", 0, 4, 0⟩] : List BgLine).map
          (fun x => x.cluster))).map
        (fun s => (s, (lastStop ([⟨"c1", 0, 4, 0⟩] : List BgLine) s
          - uncovSum ([⟨"c1", 0, 4, 0⟩] : List BgLine) s)
            / lastStop ([⟨"c1", 0, 4, 0⟩] : List BgLine) s))) :=
  ⟨by decide, C3_total_coverage_formula _ (by decide)⟩

/-- Two bedgraph lines of the same shape: same sequence and interval, and
depths that are zero together. -/
def sameShape (a b : BgLine) : Prop :=
  a.cluster = b.cluster ∧ a.start = b.start ∧ a.stop = b.stop ∧
    (a.cov = 0 ↔ b.cov = 0)

theorem covStep_sameShape {a b : BgLine} (h : sameShape a b) (st : CovState) :
    covStep st a = covStep st b := by
  obtain ⟨h1, h2, h3, h4⟩ := h
  simp only [covStep, h1, h2, h3]
  by_cases hc : a.cov = 0
  · rw [if_pos hc, if_pos (h4.mp hc)]
  · rw [if_neg hc, if_neg fun hb => hc (h4.mpr hb)]

theorem covFold_sameShape {bg₁ bg₂ : List BgLine}
    (h : List.Forall₂ sameShape bg₁ bg₂) :
    ∀ st, bg₁.foldl covStep st = bg₂.foldl covStep st := by
  induction h with
  | nil => intro _; rfl
  | cons hab htail ih =>
    intro st
    simp only [List.foldl_cons]
    rw [covStep_sameShape hab]
    exact ih _

/-- C10: computetotalcoverage depends only on the zero/nonzero pattern of
the depth values: two streams that agree on sequences and intervals and
whose depths are zero in the same places yield identical results. -/
theorem C10_depth_pattern_only (bg₁ bg₂ : List BgLine)
    (h : List.Forall₂ sameShape bg₁ bg₂) :
    computetotalcoverage bg₁ = computetotalcoverage bg₂ := by
  unfold computetotalcoverage
  rw [covFold_sameShape h]

/-- Witness for C10: replacing the nonzero depth 1 by the nonzero depth 7
leaves the result unchanged. -/
theorem C10_depth_pattern_only_witness :
    List.Forall₂ sameShape ([⟨"c1", 0, 5, 1⟩] : List BgLine)
      ([⟨"c1", 0, 5, 7⟩] : List BgLine) ∧
    computetotalcoverage ([⟨"c1", 0, 5, 1⟩] : List BgLine)
      = computetotalcoverage ([⟨"c1", 0, 5, 7⟩] : List BgLine) :=
  ⟨List.Forall₂.cons ⟨rfl, rfl, rfl, by norm_num⟩ List.Forall₂.nil,
   C10_depth_pattern_only _ _
     (List.Forall₂.cons ⟨rfl, rfl, rfl, by norm_num⟩ List.Forall₂.nil)⟩

/-! ## Characterizing the normalizers -/

theorem dictSet_of_not_mem {d : QDict} {k : String} (h : k ∉ keysOf d) (v : ℚ) :
    dictSet d k v = d ++ [(k, v)] := by
  induction d with
  | nil => rfl
  | cons p t ih =>
    have hp : ¬ p.1 = k := fun he => h (by simp [keysOf, he])
    have h' : k ∉ keysOf t := fun hm => h (List.mem_cons_of_mem p.1 hm)
    simp only [dictSet, if_neg hp, List.cons_append]
    rw [ih h']

theorem sum_map_zero {α : Type} (l : List α) :
    (l.map (fun _ => (0 : ℚ))).sum = 0 := by
  induction l with
  | nil => rfl
  | cons a t ih => simp [ih]

theorem sum_map_div {α : Type} (l : List α) (f : α → ℚ) (c : ℚ) :
    (l.map (fun x => f x / c)).sum = (l.map f).sum / c := by
  induction l with
  | nil => simp
  | cons a t ih => simp [ih, add_div]

theorem sum_pos_of_mem {l : List ℚ} {x : ℚ} (hx : x ∈ l) (hpos : 0 < x)
    (hnn : ∀ y ∈ l, 0 ≤ y) : 0 < l.sum := by
  induction l with
  | nil => cases hx
  | cons a t ih =>
    rw [List.sum_cons]
    have hnt : ∀ y ∈ t, 0 ≤ y := fun y hy => hnn y (List.mem_cons_of_mem a hy)
    rcases List.mem_cons.mp hx with h | hxt
    · have hts : 0 ≤ t.sum := List.sum_nonneg hnt
      have hxa : 0 < a := h ▸ hpos
      linarith
    · have h1 : 0 ≤ a := hnn a (List.mem_cons_self a t)
      have h2 : 0 < t.sum := ih hxt hnt
      linarith

theorem exists_pos_of_sum_ne {l : List ℚ} (hnn : ∀ y ∈ l, 0 ≤ y)
    (hne : l.sum ≠ 0) : ∃ x ∈ l, 0 < x := by
  induction l with
  | nil => exact absurd rfl hne
  | cons a t ih =>
    rw [List.sum_cons] at hne
    by_cases ha : 0 < a
    · exact ⟨a, List.mem_cons_self a t, ha⟩
    · have ha0 : a = 0 :=
        le_antisymm (not_lt.mp ha) (hnn a (List.mem_cons_self a t))
      rw [ha0, zero_add] at hne
      obtain ⟨x, hx, hxp⟩ := ih (fun y hy => hnn y (List.mem_cons_of_mem a hy)) hne
      exact ⟨x, List.mem_cons_of_mem a hx, hxp⟩

theorem tpmFold_eq (table : List CountLine)
    (h : (table.map (fun r => r.cluster)).Nodup) :
    table.foldl tpmRateStep ⟨[], 0⟩ =
      ⟨(table.filter (fun r => !decide (r.length = 0))).map
         (fun r => (r.cluster, r.nreads / r.length)),
       ((table.filter (fun r => !decide (r.length = 0))).map
         (fun r => r.nreads / r.length)).sum⟩ := by
  induction table using List.reverseRecOn with
  | nil => rfl
  | append_singleton t r ih =>
    rw [List.map_append] at h
    obtain ⟨hnd, _, hdisj⟩ := List.nodup_append.mp h
    have hrnot : r.cluster ∉ t.map (fun x => x.cluster) := by
      intro hm
      exact hdisj hm (by simp)
    rw [List.foldl_append, ih hnd, List.foldl_cons, List.foldl_nil,
      List.filter_append]
    unfold tpmRateStep
    by_cases hlen : r.length = 0
    · rw [if_pos hlen,
        show List.filter (fun r => !decide (r.length = 0)) [r] = [] by simp [hlen]]
      simp
    · rw [if_neg hlen,
        show List.filter (fun r => !decide (r.length = 0)) [r] = [r] by simp [hlen]]
      have hkey : r.cluster ∉ keysOf
          ((t.filter (fun r => !decide (r.length = 0))).map
            (fun r => (r.cluster, r.nreads / r.length))) := by
        rw [keysOf]
        intro hm
        rw [List.map_map] at hm
        obtain ⟨x, hx, hxe⟩ := List.mem_map.mp hm
        exact hrnot (hxe ▸ List.mem_map_of_mem _ (List.mem_of_mem_filter hx))
      rw [dictSet_of_not_mem hkey]
      simp

theorem rpkmFold_eq (table : List CountLine)
    (h : (table.map (fun r => r.cluster)).Nodup) :
    table.foldl rpkmStep ⟨0, [], []⟩ =
      ⟨((table.filter (fun r => !r.hasStar)).map (fun r => r.nreads)).sum,
       (table.filter (fun r => !r.hasStar)).map (fun r => (r.cluster, r.nreads)),
       (table.filter (fun r => !r.hasStar)).map (fun r => (r.cluster, r.length))⟩ := by
  induction table using List.reverseRecOn with
  | nil => rfl
  | append_singleton t r ih =>
    rw [List.map_append] at h
    obtain ⟨hnd, _, hdisj⟩ := List.nodup_append.mp h
    have hrnot : r.cluster ∉ t.map (fun x => x.cluster) := by
      intro hm
      exact hdisj hm (by simp)
    rw [List.foldl_append, ih hnd, List.foldl_cons, List.foldl_nil,
      List.filter_append]
    unfold rpkmStep
    by_cases hstar : r.hasStar
    · rw [if_pos hstar,
        show List.filter (fun r => !r.hasStar) [r] = [] by simp [hstar]]
      simp
    · rw [if_neg hstar,
        show List.filter (fun r => !r.hasStar) [r] = [r] by simp [hstar]]
      have hkey1 : r.cluster ∉ keysOf
          ((t.filter (fun r => !r.hasStar)).map (fun r => (r.cluster, r.nreads))) := by
        rw [keysOf]
        intro hm
        rw [List.map_map] at hm
        obtain ⟨x, hx, hxe⟩ := List.mem_map.mp hm
        exact hrnot (hxe ▸ List.mem_map_of_mem _ (List.mem_of_mem_filter hx))
      have hkey2 : r.cluster ∉ keysOf
          ((t.filter (fun r => !r.hasStar)).map (fun r => (r.cluster, r.length))) := by
        rw [keysOf]
        intro hm
        rw [List.map_map] at hm
        obtain ⟨x, hx, hxe⟩ := List.mem_map.mp hm
        exact hrnot (hxe ▸ List.mem_map_of_mem _ (List.mem_of_mem_filter hx))
      rw [dictSet_of_not_mem hkey1, dictSet_of_not_mem hkey2]
      simp

theorem tpmRates_eq (table : List CountLine)
    (h : (table.map (fun r => r.cluster)).Nodup) :
    (table.foldl tpmRateStep ⟨[], 0⟩).rates =
      (table.filter (fun r => !decide (r.length = 0))).map
        (fun r => (r.cluster, r.nreads / r.length)) := by
  rw [tpmFold_eq table h]

theorem tpmRatesum_eq (table : List CountLine)
    (h : (table.map (fun r => r.cluster)).Nodup) :
    (table.foldl tpmRateStep ⟨[], 0⟩).ratesum =
      ((table.filter (fun r => !decide (r.length = 0))).map
        (fun r => r.nreads / r.length)).sum := by
  rw [tpmFold_eq table h]

theorem rpkmSumReads_eq (table : List CountLine)
    (h : (table.map (fun r => r.cluster)).Nodup) :
    (table.foldl rpkmStep ⟨0, [], []⟩).sum_reads =
      ((table.filter (fun r => !r.hasStar)).map (fun r => r.nreads)).sum := by
  rw [rpkmFold_eq table h]

theorem rpkmReadCounts_eq (table : List CountLine)
    (h : (table.map (fun r => r.cluster)).Nodup) :
    (table.foldl rpkmStep ⟨0, [], []⟩).read_counts =
      (table.filter (fun r => !r.hasStar)).map (fun r => (r.cluster, r.nreads)) := by
  rw [rpkmFold_eq table h]

theorem rpkmClusterLengths_eq (table : List CountLine)
    (h : (table.map (fun r => r.cluster)).Nodup) :
    (table.foldl rpkmStep ⟨0, [], []⟩).cluster_lengths =
      (table.filter (fun r => !r.hasStar)).map (fun r => (r.cluster, r.length)) := by
  rw [rpkmFold_eq table h]

theorem dictGetD_recordMap {L : List CountLine} (g : CountLine → ℚ) {r : CountLine}
    (hnd : (L.map (fun x => x.cluster)).Nodup) (hr : r ∈ L) (v₀ : ℚ) :
    dictGetD (L.map (fun x => (x.cluster, g x))) r.cluster v₀ = g r := by
  induction L with
  | nil => cases hr
  | cons a t ih =>
    rw [List.map_cons] at hnd
    rcases List.mem_cons.mp hr with rfl | hrt
    · simp [dictGetD]
    · have hna : ¬ a.cluster = r.cluster := by
        intro he
        exact (List.nodup_cons.mp hnd).1 (he ▸ List.mem_map_of_mem _ hrt)
      simp only [List.map_cons, dictGetD, if_neg hna]
      exact ih (List.nodup_cons.mp hnd).2 hrt

/-! ## Claims about the normalizers -/

/-- C2: for a counts table obeying the CountRecord data model (one record
per sequence, non-negative length and read count), the TPM values sum to 1
when some sequence has a defined positive rate (length > 0 and
mapped_reads > 0), and to 0 otherwise. -/
theorem C2_tpm_sum (table : List CountLine)
    (hnodup : (table.map (fun r => r.cluster)).Nodup)
    (hpos : ∀ r ∈ table, 0 ≤ r.length ∧ 0 ≤ r.nreads) :
    ((calculateTPM table).map (fun p => p.2)).sum =
      if ∃ r ∈ table, 0 < r.length ∧ 0 < r.nreads then 1 else 0 := by
  simp only [calculateTPM]
  rw [tpmRates_eq table hnodup, tpmRatesum_eq table hnodup]
  set F := table.filter (fun r => !decide (r.length = 0)) with hFdef
  set S := (F.map (fun r => r.nreads / r.length)).sum with hSdef
  have hmapval : (List.map (fun p => p.2)
      ((F.map (fun r => (r.cluster, r.nreads / r.length))).map
        (fun p => (p.1, if S = 0 then 0 else p.2 / S))))
      = F.map (fun r => if S = 0 then 0 else (r.nreads / r.length) / S) := by
    rw [List.map_map, List.map_map]
    rfl
  have hterm : ∀ y ∈ F.map (fun r => r.nreads / r.length), 0 ≤ y := by
    intro y hy
    obtain ⟨r, hrF, rfl⟩ := List.mem_map.mp hy
    have hrt : r ∈ table := List.mem_of_mem_filter hrF
    exact div_nonneg (hpos r hrt).2 (hpos r hrt).1
  rw [hmapval]
  by_cases hS : S = 0
  · have hnex : ¬ ∃ r ∈ table, 0 < r.length ∧ 0 < r.nreads := by
      rintro ⟨r, hrt, hl, hn⟩
      have hrF : r ∈ F := List.mem_filter.mpr ⟨hrt, by simp [ne_of_gt hl]⟩
      have hrate : (0 : ℚ) < r.nreads / r.length := div_pos hn hl
      have hSpos := sum_pos_of_mem (List.mem_map_of_mem _ hrF) hrate hterm
      rw [← hSdef] at hSpos
      exact absurd hS (ne_of_gt hSpos)
    rw [if_neg hnex,
      show (fun r : CountLine => if S = 0 then (0 : ℚ) else (r.nreads / r.length) / S)
        = (fun _ => (0 : ℚ)) from funext fun r => if_pos hS]
    exact sum_map_zero F
  · obtain ⟨y, hy, hyp⟩ := exists_pos_of_sum_ne hterm (by rw [← hSdef]; exact hS)
    obtain ⟨r, hrF, rfl⟩ := List.mem_map.mp hy
    have hrt : r ∈ table := List.mem_of_mem_filter hrF
    have hlne : r.length ≠ 0 := by
      have := (List.mem_filter.mp hrF).2
      simpa using this
    have hl : 0 < r.length := lt_of_le_of_ne (hpos r hrt).1 (Ne.symm hlne)
    have hn : 0 < r.nreads := by
      rcases div_pos_iff.mp hyp with ⟨h1, _⟩ | ⟨_, h2⟩
      · exact h1
      · exact absurd hl (not_lt.mpr (le_of_lt h2))
    rw [if_pos ⟨r, hrt, hl, hn⟩,
      show (fun r : CountLine => if S = 0 then (0 : ℚ) else (r.nreads / r.length) / S)
        = (fun r => (r.nreads / r.length) / S) from funext fun r => if_neg hS,
      sum_map_div, ← hSdef]
    exact div_self hS

/-- Witness for C2 at the counts table [("c1", 1000, 100)]. -/
theorem C2_tpm_sum_witness :
    (([(⟨"c1", 1000, 100, false⟩ : CountLine)].map (fun r => r.cluster)).Nodup) ∧
    (∀ r ∈ [(⟨"c1", 1000, 100, false⟩ : CountLine)], 0 ≤ r.length ∧ 0 ≤ r.nreads) ∧
    ((calculateTPM [(⟨"c1", 1000, 100, false⟩ : CountLine)]).map (fun p => p.2)).sum =
      if ∃ r ∈ [(⟨"c1", 1000, 100, false⟩ : CountLine)],
        0 < r.length ∧ 0 < r.nreads then 1 else 0 :=
  ⟨by decide, by decide, C2_tpm_sum _ (by decide) (by decide)⟩

unseal Rat.add Rat.mul Rat.sub Rat.inv in
/-- C8 counterexample: for the counts table [("c1", 0, 5)] (length 0),
calculateTPM returns a mapping in which "c1" is NOT present — the record
is silently dropped, not mapped to 0 — while calculateRPKM does return
("c1", 0). -/
theorem C8_counterexample :
    (calculateTPM [⟨"c1", 0, 5, false⟩]).map (fun p => p.1) = [] ∧
    calculateRPKM [⟨"c1", 0, 5, false⟩] = [("c1", 0)] :=
  ⟨rfl, by decide⟩

/-- C8 (amended): a record with length 0 never causes a fault in either
normalizer; calculateRPKM returns that sequence with value 0, but
calculateTPM excludes the sequence from its returned mapping entirely
(ZeroDivisionError on the rate is caught and the record skipped). -/
theorem C8_zero_length (table : List CountLine) (r : CountLine)
    (hnodup : (table.map (fun x => x.cluster)).Nodup)
    (hr : r ∈ table) (hlen : r.length = 0) (hstar : r.hasStar = false) :
    r.cluster ∉ (calculateTPM table).map (fun p => p.1) ∧
    (r.cluster, (0 : ℚ)) ∈ calculateRPKM table := by
  constructor
  · have hkeys : (calculateTPM table).map (fun p => p.1)
        = (table.filter (fun x => !decide (x.length = 0))).map (fun x => x.cluster) := by
      simp only [calculateTPM]
      rw [tpmRates_eq table hnodup, List.map_map, List.map_map]
      rfl
    rw [hkeys]
    intro hm
    obtain ⟨r', hr'F, he⟩ := List.mem_map.mp hm
    have hr't : r' ∈ table := List.mem_of_mem_filter hr'F
    have : r' = r := List.inj_on_of_nodup_map hnodup hr't hr he
    subst this
    have := (List.mem_filter.mp hr'F).2
    simp [hlen] at this
  · have hrG : r ∈ table.filter (fun x => !x.hasStar) :=
      List.mem_filter.mpr ⟨hr, by simp [hstar]⟩
    have hGnd : ((table.filter (fun x => !x.hasStar)).map (fun x => x.cluster)).Nodup :=
      hnodup.sublist ((table.filter_sublist).map _)
    have hval : dictGetD ((table.filter (fun x => !x.hasStar)).map
        (fun x => (x.cluster, x.length))) r.cluster 0 = 0 := by
      rw [dictGetD_recordMap (fun x => x.length) hGnd hrG 0]
      exact hlen
    simp only [calculateRPKM]
    rw [rpkmReadCounts_eq table hnodup, rpkmClusterLengths_eq table hnodup]
    refine List.mem_map.mpr ⟨(r.cluster, r.nreads), List.mem_map_of_mem _ hrG, ?_⟩
    simp [hval]

/-- Witness for C8 (amended) at the table [("c1", 0, 5), ("c2", 10, 3)]
with r the zero-length record ("c1", 0, 5). -/
theorem C8_zero_length_witness :
    (([(⟨"c1", 0, 5, false⟩ : CountLine), ⟨"c2", 10, 3, false⟩].map
        (fun x => x.cluster)).Nodup) ∧
    ((⟨"c1", 0, 5, false⟩ : CountLine)
        ∈ [(⟨"c1", 0, 5, false⟩ : CountLine), ⟨"c2", 10, 3, false⟩]) ∧
    ((⟨"c1", 0, 5, false⟩ : CountLine).cluster ∉
      (calculateTPM [(⟨"c1", 0, 5, false⟩ : CountLine), ⟨"c2", 10, 3, false⟩]).map
        (fun p => p.1) ∧
    ((⟨"c1", 0, 5, false⟩ : CountLine).cluster, (0 : ℚ)) ∈
      calculateRPKM [(⟨"c1", 0, 5, false⟩ : CountLine), ⟨"c2", 10, 3, false⟩]) :=
  ⟨by decide, List.mem_cons_self _ _,
   C8_zero_length _ _ (by decide) (List.mem_cons_self _ _) rfl rfl⟩

/-- C9: calculateRPKM skips every counts line containing a star: under the
one-record-per-sequence data model such a sequence is absent from the RPKM
mapping and its reads are excluded from the read total; calculateTPM
applies no such exclusion — its rate sum ranges over all records with
nonzero length, and a starred record with nonzero length still appears in
the TPM mapping. -/
theorem C9_star_exclusion (table : List CountLine)
    (hnodup : (table.map (fun x => x.cluster)).Nodup) :
    (∀ r ∈ table, r.hasStar = true →
      r.cluster ∉ (calculateRPKM table).map (fun p => p.1)) ∧
    (table.foldl rpkmStep ⟨0, [], []⟩).sum_reads
      = ((table.filter (fun x => !x.hasStar)).map (fun x => x.nreads)).sum ∧
    (table.foldl tpmRateStep ⟨[], 0⟩).ratesum
      = ((table.filter (fun x => !decide (x.length = 0))).map
          (fun x => x.nreads / x.length)).sum ∧
    (∀ r ∈ table, r.hasStar = true → r.length ≠ 0 →
      r.cluster ∈ (calculateTPM table).map (fun p => p.1)) := by
  have hkeysR : (calculateRPKM table).map (fun p => p.1)
      = (table.filter (fun x => !x.hasStar)).map (fun x => x.cluster) := by
    simp only [calculateRPKM]
    rw [rpkmReadCounts_eq table hnodup, List.map_map, List.map_map]
    rfl
  have hkeysT : (calculateTPM table).map (fun p => p.1)
      = (table.filter (fun x => !decide (x.length = 0))).map (fun x => x.cluster) := by
    simp only [calculateTPM]
    rw [tpmRates_eq table hnodup, List.map_map, List.map_map]
    rfl
  refine ⟨?_, ?_, ?_, ?_⟩
  · intro r hr hstar
    rw [hkeysR]
    intro hm
    obtain ⟨r', hr'G, he⟩ := List.mem_map.mp hm
    have hr't : r' ∈ table := List.mem_of_mem_filter hr'G
    have : r' = r := List.inj_on_of_nodup_map hnodup hr't hr he
    subst this
    have := (List.mem_filter.mp hr'G).2
    simp [hstar] at this
  · exact rpkmSumReads_eq table hnodup
  · exact tpmRatesum_eq table hnodup
  · intro r hr hstar hlen
    rw [hkeysT]
    exact List.mem_map_of_mem _ (List.mem_filter.mpr ⟨hr, by simp [hlen]⟩)

/-- Witness for C9 at the table [("*", 10, 5, star), ("c1", 10, 5)]. -/
theorem C9_star_exclusion_witness :
    (([(⟨"*", 10, 5, true⟩ : CountLine), ⟨"c1", 10, 5, false⟩].map
        (fun x => x.cluster)).Nodup) ∧
    ((∀ r ∈ [(⟨"*", 10, 5, true⟩ : CountLine), ⟨"c1", 10, 5, false⟩],
        r.hasStar = true →
      r.cluster ∉ (calculateRPKM
        [(⟨"*", 10, 5, true⟩ : CountLine), ⟨"c1", 10, 5, false⟩]).map
          (fun p => p.1)) ∧
    ([(⟨"*", 10, 5, true⟩ : CountLine), ⟨"c1", 10, 5, false⟩].foldl
        rpkmStep ⟨0, [], []⟩).sum_reads
      = (([(⟨"*", 10, 5, true⟩ : CountLine), ⟨"c1", 10, 5, false⟩].filter
          (fun x => !x.hasStar)).map (fun x => x.nreads)).sum ∧
    ([(⟨"*", 10, 5, true⟩ : CountLine), ⟨"c1", 10, 5, false⟩].foldl
        tpmRateStep ⟨[], 0⟩).ratesum
      = (([(⟨"*", 10, 5, true⟩ : CountLine), ⟨"c1", 10, 5, false⟩].filter
          (fun x => !decide (x.length = 0))).map (fun x => x.nreads / x.length)).sum ∧
    (∀ r ∈ [(⟨"*", 10, 5, true⟩ : CountLine), ⟨"c1", 10, 5, false⟩],
        r.hasStar = true → r.length ≠ 0 →
      r.cluster ∈ (calculateTPM
        [(⟨"*", 10, 5, true⟩ : CountLine), ⟨"c1", 10, 5, false⟩]).map
          (fun p => p.1))) :=
  ⟨by decide, C9_star_exclusion _ (by decide)⟩

/-! ## Claims about computecorecoverage -/

theorem keysOf_dictSet_of_mem {d : QDict} {k : String} (h : k ∈ keysOf d) (v : ℚ) :
    keysOf (dictSet d k v) = keysOf d := by
  induction d with
  | nil => cases h
  | cons p t ih =>
    by_cases hp : p.1 = k
    · simp only [dictSet, if_pos hp, keysOf, List.map_cons]
      rw [hp]
    · have h' : k ∈ keysOf t := by
        rcases List.mem_cons.mp h with he | ht
        · exact absurd he.symm hp
        · exact ht
      simp only [dictSet, if_neg hp, keysOf, List.map_cons]
      rw [show (dictSet t k v).map Prod.fst = keysOf t from ih h']
      rfl

theorem keysOf_ccAdd_of_mem {cc : QDict} {c : String} (h : c ∈ keysOf cc) (d : ℚ) :
    keysOf (ccAdd cc c d) = keysOf cc :=
  keysOf_dictSet_of_mem h _

theorem keysOf_ite_ccAdd {cc : QDict} {c : String} (P : Prop) [Decidable P] (d : ℚ)
    (h : c ∈ keysOf cc) :
    keysOf (if P then ccAdd cc c d else cc) = keysOf cc := by
  by_cases hP : P
  · rw [if_pos hP]; exact keysOf_ccAdd_of_mem h d
  · rw [if_neg hP]

/-- One sweep step adds the line's cluster to the core_cov key set (at the
end if new) and nothing else. -/
theorem coreStep_keys (t : BedTables) (st : CoreState) (l : BgLine) :
    keysOf (coreStep t st l).core_cov = insertKey (keysOf st.core_cov) l.cluster := by
  have hc0 : keysOf (if l.cluster ∈ keysOf st.core_cov then st.core_cov
      else st.core_cov ++ [(l.cluster, 0)]) = insertKey (keysOf st.core_cov) l.cluster := by
    unfold insertKey
    by_cases hmem : l.cluster ∈ keysOf st.core_cov
    · rw [if_pos hmem, if_pos hmem]
    · rw [if_neg hmem, if_neg hmem]
      simp [keysOf]
  have hcm : l.cluster ∈ keysOf (if l.cluster ∈ keysOf st.core_cov then st.core_cov
      else st.core_cov ++ [(l.cluster, 0)]) := by
    rw [hc0]; exact self_mem_insertKey _ _
  simp only [coreStep]
  split
  · split
    · exact hc0
    · rename_i ce _
      set cc0 := if l.cluster ∈ keysOf st.core_cov then st.core_cov
        else st.core_cov ++ [(l.cluster, 0)] with hcc0
      have hk1 : keysOf (if ((ce : ℚ) ≤ l.stop ∧ (ce : ℚ) ≥ l.start) ∧ l.cov ≠ 0 then
          ccAdd cc0 l.cluster ((ce : ℚ) - l.start) else cc0) = keysOf cc0 :=
        keysOf_ite_ccAdd _ _ hcm
      have hk1m : l.cluster ∈ keysOf (if ((ce : ℚ) ≤ l.stop ∧ (ce : ℚ) ≥ l.start) ∧ l.cov ≠ 0 then
          ccAdd cc0 l.cluster ((ce : ℚ) - l.start) else cc0) := by
        rw [hk1]; exact hcm
      set cc1 := if ((ce : ℚ) ≤ l.stop ∧ (ce : ℚ) ≥ l.start) ∧ l.cov ≠ 0 then
          ccAdd cc0 l.cluster ((ce : ℚ) - l.start) else cc0 with hcc1
      have hk2 : keysOf (if (if (ce : ℚ) ≤ l.stop ∧ (ce : ℚ) ≥ l.start then false else st.flag)
            = true ∧ l.cov ≠ 0 then
          ccAdd cc1 l.cluster (l.stop - l.start) else cc1) = keysOf cc1 :=
        keysOf_ite_ccAdd _ _ hk1m
      have hk2m : l.cluster ∈ keysOf (if (if (ce : ℚ) ≤ l.stop ∧ (ce : ℚ) ≥ l.start
            then false else st.flag) = true ∧ l.cov ≠ 0 then
          ccAdd cc1 l.cluster (l.stop - l.start) else cc1) := by
        rw [hk2]; exact hk1m
      set cc2 := if (if (ce : ℚ) ≤ l.stop ∧ (ce : ℚ) ≥ l.start then false else st.flag)
            = true ∧ l.cov ≠ 0 then
          ccAdd cc1 l.cluster (l.stop - l.start) else cc1 with hcc2
      split
      · rw [hk2, hk1]; exact hc0
      · rename_i cs _
        have hk3 : keysOf (if ((cs : ℚ) ≥ l.start ∧ (cs : ℚ) ≤ l.stop) ∧ l.cov ≠ 0 then
            ccAdd cc2 l.cluster (l.stop - (cs : ℚ)) else cc2) = keysOf cc2 :=
          keysOf_ite_ccAdd _ _ hk2m
        rw [hk3, hk2, hk1]; exact hc0
  · rw [keysOf_dictSet_of_mem hcm 0]; exact hc0

/-- The sweep's core_cov keys are exactly the bedgraph's clusters in
first-occurrence order. -/
theorem coreSweep_keys (bg : List BgLine) (bf : List BedLine) :
    keysOf (coreSweep bg bf).core_cov = dedupFirst (bg.map (fun x => x.cluster)) := by
  unfold coreSweep
  induction bg using List.reverseRecOn with
  | nil => rfl
  | append_singleton bg l ih =>
    rw [List.foldl_append, List.foldl_cons, List.foldl_nil, coreStep_keys, ih,
      List.map_append,
      show List.map (fun x : BgLine => x.cluster) [l] = [l.cluster] from rfl,
      dedupFirst_concat]

unseal Rat.add Rat.mul Rat.sub Rat.inv in
/-- C4: on the core table [("c1", 100, 200)] and the stream
[("c1", 0, 150, 3), ("c1", 150, 1000, 0)], the sweep accumulates exactly
50 covered core bases for "c1" (the portion 100..150 of the core region),
and computecorecoverage returns core coverage 1/2. -/
theorem C4_core_scenario :
    (coreSweep [⟨"c1", 0, 150, 3⟩, ⟨"c1", 150, 1000, 0⟩] [⟨"c1", 100, 200⟩]).core_cov
      = [("c1", 50)] ∧
    computecorecoverage [⟨"c1", 0, 150, 3⟩, ⟨"c1", 150, 1000, 0⟩] [⟨"c1", 100, 200⟩]
      = Except.ok [("c1", 1/2)] :=
  ⟨by decide, by decide⟩

/-- C5: every value in a successfully returned core-coverage mapping is at
most 1: each entry is either the KeyError fallback 0 or a quotient clamped
to 1. -/
theorem C5_core_clamp (bg : List BgLine) (bf : List BedLine) (m : QDict)
    (h : computecorecoverage bg bf = Except.ok m) :
    ∀ p ∈ m, p.2 ≤ 1 := by
  unfold computecorecoverage at h
  intro p hp
  obtain ⟨a, _, hfa⟩ := exceptMapM_mem h p hp
  by_cases hk : a.1 ∈ (bedTables bf).keys
  · rw [if_pos hk] at hfa
    by_cases hz : (bedTables bf).core_lengths a.1 = 0
    · rw [if_pos hz] at hfa; cases hfa
    · rw [if_neg hz] at hfa
      have hpe : (a.1, if a.2 / ((bedTables bf).core_lengths a.1 : ℚ) > 1 then 1
          else a.2 / ((bedTables bf).core_lengths a.1 : ℚ)) = p := Except.ok.inj hfa
      rw [← hpe]
      by_cases hgt : a.2 / ((bedTables bf).core_lengths a.1 : ℚ) > 1
      · simp [hgt]
      · simp [hgt]
        exact le_of_not_lt hgt
  · rw [if_neg hk] at hfa
    have hpe : (a.1, (0 : ℚ)) = p := Except.ok.inj hfa
    rw [← hpe]
    norm_num

unseal Rat.add Rat.mul Rat.sub Rat.inv in
/-- Witness for C5 at a stream that exactly covers its core region. -/
theorem C5_core_clamp_witness :
    computecorecoverage [⟨"c1", 0, 10, 2⟩] [⟨"c1", 0, 10⟩] = Except.ok [("c1", 1)] ∧
    ∀ p ∈ ([("c1", (1 : ℚ))] : QDict), p.2 ≤ 1 :=
  ⟨by decide,
   C5_core_clamp [⟨"c1", 0, 10, 2⟩] [⟨"c1", 0, 10⟩] [("c1", (1 : ℚ))] (by decide)⟩

unseal Rat.add Rat.mul Rat.sub Rat.inv in
/-- C6 counterexample: with a single zero-length core region
("c1", 5, 5) and the stream [("c1", 0, 10, 1)], the final division by
core_lengths["c1"] = 0 raises ZeroDivisionError (only KeyError is caught),
so computecorecoverage does not return a mapping with value 0. -/
theorem C6_counterexample :
    computecorecoverage [⟨"c1", 0, 10, 1⟩] [⟨"c1", 5, 5⟩] = Except.error () := by
  decide

/-- C6 (amended): when a sequence s of the bedgraph has core regions whose
total length is 0, the division core_cov[s] / core_lengths[s] is not
guarded — computecorecoverage raises ZeroDivisionError (an error result);
the resolve-to-0 fallback applies only to sequences entirely absent from
the core table (KeyError). -/
theorem C6_zero_core_length (bg : List BgLine) (bf : List BedLine) (s : String)
    (h1 : s ∈ bg.map (fun x => x.cluster))
    (h2 : s ∈ (bedTables bf).keys)
    (h3 : (bedTables bf).core_lengths s = 0) :
    computecorecoverage bg bf = Except.error () := by
  have hk : s ∈ keysOf (coreSweep bg bf).core_cov := by
    rw [coreSweep_keys]
    exact mem_dedupFirst.mpr h1
  obtain ⟨p, hp, hfst⟩ := List.mem_map.mp hk
  unfold computecorecoverage
  refine exceptMapM_error ⟨p, hp, ?_⟩
  show (if p.1 ∈ (bedTables bf).keys then
          if (bedTables bf).core_lengths p.1 = 0 then Except.error ()
          else Except.ok (p.1, if p.2 / ((bedTables bf).core_lengths p.1 : ℚ) > 1 then 1
            else p.2 / ((bedTables bf).core_lengths p.1 : ℚ))
        else Except.ok (p.1, 0)) = Except.error ()
  rw [hfst, if_pos h2, if_pos h3]

/-- Witness for C6 (amended) at a concrete zero-length core table. -/
theorem C6_zero_core_length_witness :
    (("c1" : String) ∈ ([⟨"c1", 0, 20, 2⟩] : List BgLine).map (fun x => x.cluster)) ∧
    (("c1" : String) ∈ (bedTables [⟨"c1", 7, 7⟩]).keys) ∧
    ((bedTables [⟨"c1", 7, 7⟩]).core_lengths "c1" = 0) ∧
    computecorecoverage [⟨"c1", 0, 20, 2⟩] [⟨"c1", 7, 7⟩] = Except.error () :=
  ⟨by decide, by decide, by decide,
   C6_zero_core_length [⟨"c1", 0, 20, 2⟩] [⟨"c1", 7, 7⟩] "c1"
     (by decide) (by decide) (by decide)⟩

unseal Rat.add Rat.mul Rat.sub Rat.inv in
/-- C7 counterexample: with core regions c1:[10,20), c2:[100,200) and the
stream [("c1", 0, 15, 1), ("c2", 0, 50, 1)], the first c1 line leaves the
inside_core flag set; the first c2 line is then processed with that stale
flag (it is NOT reset to false on first encountering c2), which credits c2
with 50 covered core bases; the variant that resets the cursor as the
claim states returns 0 for c2 instead. -/
theorem C7_counterexample :
    ((([⟨"c1", 0, 15, 1⟩] : List BgLine)).foldl
        (coreStep (bedTables [⟨"c1", 10, 20⟩, ⟨"c2", 100, 200⟩])) coreInit).flag = true ∧
    computecorecoverage [⟨"c1", 0, 15, 1⟩, ⟨"c2", 0, 50, 1⟩]
        [⟨"c1", 10, 20⟩, ⟨"c2", 100, 200⟩]
      = Except.ok [("c1", 1/2), ("c2", 1/2)] ∧
    computecorecoverage_specReset [⟨"c1", 0, 15, 1⟩, ⟨"c2", 0, 50, 1⟩]
        [⟨"c1", 10, 20⟩, ⟨"c2", 100, 200⟩]
      = Except.ok [("c1", 1/2), ("c2", 0)] :=
  ⟨by decide, by decide, by decide⟩

/-- C7 (amended): on first encountering a sequence, the sweep resets only
the index cursor — the step's result is independent of the incoming index
value — while the inside_core flag is NOT reset and keeps the value left
by the previously processed sequence (the counterexample shows the stale
flag changing the result). -/
theorem C7_cursor_reset (t : BedTables) (cc : QDict) (f : Bool) (i i' : ℕ)
    (l : BgLine) (h : l.cluster ∉ keysOf cc) :
    coreStep t ⟨cc, f, i⟩ l = coreStep t ⟨cc, f, i'⟩ l := by
  simp only [coreStep, if_neg h]

/-- Witness for C7 (amended): with an unseen cluster the incoming index
values 5 and 7 give the same step result. -/
theorem C7_cursor_reset_witness :
    (("c9" : String) ∉ keysOf ([("c0", 3)] : QDict)) ∧
    coreStep (bedTables [⟨"c9", 1, 4⟩]) ⟨[("c0", 3)], true, 5⟩ ⟨"c9", 0, 10, 1⟩
      = coreStep (bedTables [⟨"c9", 1, 4⟩]) ⟨[("c0", 3)], true, 7⟩ ⟨"c9", 0, 10, 1⟩ :=
  ⟨by decide, C7_cursor_reset _ _ _ _ _ _ (by decide)⟩

end Metaclust
